import Mathlib

/-!
Verification development for the BrokenAssets fragmentation + annotation
pipeline (src/services/shatterEngine.ts, src/components/Viewer.tsx and the
matching unnamed component file).

The geometric code operates on JavaScript floating-point numbers; we embed
it over exact arithmetic: `ℚ` for the purely algebraic parts (partitioning,
the drop rule, the projection/clipping pipeline) and `ℝ` where the source
calls trigonometric functions or square roots (quaternions, normalisation).
-/

namespace BrokenAssets

/-- A 3D point, as used by `THREE.Vector3` in the shatter engine
(exact-arithmetic embedding over `ℚ`). -/
structure Vec3 where
  x : ℚ
  y : ℚ
  z : ℚ
deriving DecidableEq, Repr

/-- A triangle of the non-indexed source mesh: three vertices, each triangle
owning its own copies (shatterEngine.ts lines 49-51). -/
structure Triangle where
  a : Vec3
  b : Vec3
  c : Vec3
deriving DecidableEq, Repr

/-- Triangle centroid, shatterEngine.ts lines 53-57: the componentwise average
of the three vertices. -/
def triangleCentroid (t : Triangle) : Vec3 :=
  ⟨(t.a.x + t.b.x + t.c.x) / 3,
   (t.a.y + t.b.y + t.c.y) / 3,
   (t.a.z + t.b.z + t.c.z) / 3⟩

/-- Squared Euclidean distance, `THREE.Vector3.distanceToSquared`. -/
def distanceToSquared (p q : Vec3) : ℚ :=
  (p.x - q.x) ^ 2 + (p.y - q.y) ^ 2 + (p.z - q.z) ^ 2

/-- The seed scan of shatterEngine.ts lines 59-67.  The accumulator is
`(closestSeedIndex, minDist)` where `minDist = none` models the initial
JavaScript value `Infinity`; `s` is the index of the first seed of the
remaining list.  The update happens only on a strictly smaller squared
distance, exactly as `distSq < minDist` in the source. -/
def scanSeeds (c : Vec3) : Nat → List Vec3 → Nat × Option ℚ → Nat × Option ℚ
  | _, [], acc => acc
  | s, seed :: rest, (bi, bd) =>
      let d := distanceToSquared c seed
      match bd with
      | none => scanSeeds c (s + 1) rest (s, some d)
      | some m =>
          if d < m then scanSeeds c (s + 1) rest (s, some d)
          else scanSeeds c (s + 1) rest (bi, bd)

/-- Index of the seed assigned to a triangle centroid: the scan starts with
`closestSeedIndex = 0` and `minDist = Infinity` (shatterEngine.ts lines
59-60). -/
def closestSeedIndex (c : Vec3) (seeds : List Vec3) : Nat :=
  (scanSeeds c 0 seeds (0, none)).1

/-- The bucket index a triangle is assigned to by the partition loop. -/
def bucketOf (seeds : List Vec3) (t : Triangle) : Nat :=
  closestSeedIndex (triangleCentroid t) seeds

/-- The triangle buckets built by the partition loop (shatterEngine.ts lines
39-74): bucket `k` receives, in input order, exactly the triangles whose
nearest seed has index `k`. -/
def partitionBuckets (tris : List Triangle) (seeds : List Vec3) :
    List (List Triangle) :=
  (List.range seeds.length).map fun k => tris.filter fun t => bucketOf seeds t = k

/-- Characterisation of the seed scan when the accumulator already holds a
finite best distance: the result still holds a finite distance, that distance
is a lower bound of the old best and of every remaining seed distance, and the
returned index is either the old best (when nothing is strictly smaller) or
`s + k` for the first strictly improving position `k`. -/
theorem scanSeeds_some_spec (c : Vec3) (rest : List Vec3) :
    ∀ (s bi : Nat) (m : ℚ),
      ∃ m2 : ℚ, (scanSeeds c s rest (bi, some m)).2 = some m2 ∧
        (((scanSeeds c s rest (bi, some m)).1 = bi ∧ m2 = m ∧
            ∀ k (hk : k < rest.length), m ≤ distanceToSquared c (rest.get ⟨k, hk⟩))
        ∨ (∃ k, ∃ hk : k < rest.length,
            (scanSeeds c s rest (bi, some m)).1 = s + k ∧
            m2 = distanceToSquared c (rest.get ⟨k, hk⟩) ∧ m2 < m ∧
            (∀ j (hj : j < rest.length), m2 ≤ distanceToSquared c (rest.get ⟨j, hj⟩)) ∧
            (∀ j, j < k → ∀ hj : j < rest.length,
              m2 < distanceToSquared c (rest.get ⟨j, hj⟩)))) := by
  induction rest with
  | nil =>
      intro s bi m
      exact ⟨m, rfl, Or.inl ⟨rfl, rfl, fun k hk => absurd hk (Nat.not_lt_zero k)⟩⟩
  | cons seed rest ih =>
      intro s bi m
      by_cases hlt : distanceToSquared c seed < m
      · -- the head seed strictly improves: recurse with (s, d₀)
        have hstep : scanSeeds c s (seed :: rest) (bi, some m)
            = scanSeeds c (s + 1) rest (s, some (distanceToSquared c seed)) := by
          simp [scanSeeds, hlt]
        obtain ⟨m2, hm2, hcase⟩ := ih (s + 1) s (distanceToSquared c seed)
        refine ⟨m2, by rw [hstep]; exact hm2, Or.inr ?_⟩
        rcases hcase with ⟨hidx, hval, hmin⟩ | ⟨k, hk, hidx, hval, hless, hmin, hstrict⟩
        · -- nothing later improves on d₀: k = 0
          refine ⟨0, Nat.succ_pos _, ?_, ?_, ?_, ?_, ?_⟩
          · rw [hstep, hidx]; omega
          · simpa using hval
          · simpa [hval] using hlt
          · intro j hj
            cases j with
            | zero => simp [hval]
            | succ j =>
                have hj2 : j < rest.length := Nat.lt_of_succ_lt_succ hj
                have := hmin j hj2
                simpa [hval] using this
          · intro j hj
            exact absurd hj (Nat.not_lt_zero j)
        · -- some later position k improves further: shift to k + 1
          refine ⟨k + 1, Nat.succ_lt_succ hk, ?_, ?_, ?_, ?_, ?_⟩
          · rw [hstep, hidx]; omega
          · simpa using hval
          · exact lt_trans hless hlt
          · intro j hj
            cases j with
            | zero =>
                simpa using le_of_lt hless
            | succ j =>
                have hj2 : j < rest.length := Nat.lt_of_succ_lt_succ hj
                simpa using hmin j hj2
          · intro j hjk hj
            cases j with
            | zero =>
                simpa using hless
            | succ j =>
                have hj2 : j < rest.length := Nat.lt_of_succ_lt_succ hj
                have hjk2 : j < k := Nat.lt_of_succ_lt_succ hjk
                simpa using hstrict j hjk2 hj2
      · -- the head seed does not improve: keep (bi, m)
        have hstep : scanSeeds c s (seed :: rest) (bi, some m)
            = scanSeeds c (s + 1) rest (bi, some m) := by
          simp [scanSeeds, hlt]
        have hge : m ≤ distanceToSquared c seed := le_of_not_lt hlt
        obtain ⟨m2, hm2, hcase⟩ := ih (s + 1) bi m
        refine ⟨m2, by rw [hstep]; exact hm2, ?_⟩
        rcases hcase with ⟨hidx, hval, hmin⟩ | ⟨k, hk, hidx, hval, hless, hmin, hstrict⟩
        · refine Or.inl ⟨by rw [hstep]; exact hidx, hval, ?_⟩
          intro k hk
          cases k with
          | zero => simpa using hge
          | succ k =>
              have hk2 : k < rest.length := Nat.lt_of_succ_lt_succ hk
              simpa using hmin k hk2
        · refine Or.inr ⟨k + 1, Nat.succ_lt_succ hk, ?_, ?_, hless, ?_, ?_⟩
          · rw [hstep, hidx]; omega
          · simpa using hval
          · intro j hj
            cases j with
            | zero => simpa using le_trans (le_of_lt hless) hge
            | succ j =>
                have hj2 : j < rest.length := Nat.lt_of_succ_lt_succ hj
                simpa using hmin j hj2
          · intro j hjk hj
            cases j with
            | zero => simpa using lt_of_lt_of_le hless hge
            | succ j =>
                have hj2 : j < rest.length := Nat.lt_of_succ_lt_succ hj
                have hjk2 : j < k := Nat.lt_of_succ_lt_succ hjk
                simpa using hstrict j hjk2 hj2

/-- Master characterisation of `closestSeedIndex` on a nonempty seed list: the
chosen index is in range, attains the minimum squared distance, and every
strictly earlier seed is strictly farther (hence ties go to the lowest
index). -/
theorem closestSeedIndex_spec (c : Vec3) (seeds : List Vec3) (h : seeds ≠ []) :
    ∃ hi : closestSeedIndex c seeds < seeds.length,
      (∀ j (hj : j < seeds.length),
        distanceToSquared c (seeds.get ⟨closestSeedIndex c seeds, hi⟩)
          ≤ distanceToSquared c (seeds.get ⟨j, hj⟩))
      ∧ (∀ j, j < closestSeedIndex c seeds → ∀ hj : j < seeds.length,
          distanceToSquared c (seeds.get ⟨closestSeedIndex c seeds, hi⟩)
            < distanceToSquared c (seeds.get ⟨j, hj⟩)) := by
  match seeds, h with
  | x :: xs, _ =>
    have hstep : scanSeeds c 0 (x :: xs) (0, none)
        = scanSeeds c 1 xs (0, some (distanceToSquared c x)) := by
      simp [scanSeeds]
    obtain ⟨m2, hm2, hcase⟩ := scanSeeds_some_spec c xs 1 0 (distanceToSquared c x)
    rcases hcase with ⟨hidx, hval, hmin⟩ | ⟨k, hk, hidx, hval, hless, hmin, hstrict⟩
    · -- the scan kept index 0
      have hi0 : closestSeedIndex c (x :: xs) = 0 := by
        unfold closestSeedIndex
        rw [hstep, hidx]
      refine ⟨by rw [hi0]; exact Nat.succ_pos _, ?_, ?_⟩
      · intro j hj
        cases j with
        | zero => simp [hi0]
        | succ j =>
            have hj2 : j < xs.length := Nat.lt_of_succ_lt_succ hj
            have := hmin j hj2
            simp only [hi0]
            simpa [hval] using this
      · intro j hjlt hj
        rw [hi0] at hjlt
        exact absurd hjlt (Nat.not_lt_zero j)
    · -- the scan moved to index 1 + k
      have hi0 : closestSeedIndex c (x :: xs) = 1 + k := by
        unfold closestSeedIndex
        rw [hstep, hidx]
      have hik : closestSeedIndex c (x :: xs) = k + 1 := by omega
      refine ⟨by rw [hik]; exact Nat.succ_lt_succ hk, ?_, ?_⟩
      · intro j hj
        have hget : (x :: xs).get ⟨closestSeedIndex c (x :: xs), by
            rw [hik]; exact Nat.succ_lt_succ hk⟩ = xs.get ⟨k, hk⟩ := by
          simp [hik]
        rw [hget, ← hval]
        cases j with
        | zero => exact le_of_lt hless
        | succ j =>
            have hj2 : j < xs.length := Nat.lt_of_succ_lt_succ hj
            simpa using hmin j hj2
      · intro j hjlt hj
        have hget : (x :: xs).get ⟨closestSeedIndex c (x :: xs), by
            rw [hik]; exact Nat.succ_lt_succ hk⟩ = xs.get ⟨k, hk⟩ := by
          simp [hik]
        rw [hget, ← hval]
        cases j with
        | zero => exact hless
        | succ j =>
            have hj2 : j < xs.length := Nat.lt_of_succ_lt_succ hj
            have hjk : j < k := by omega
            simpa using hstrict j hjk hj2

/-- The assigned bucket index is always in range when there is at least one
seed. -/
theorem bucketOf_lt (seeds : List Vec3) (h : seeds ≠ []) (t : Triangle) :
    bucketOf seeds t < seeds.length := by
  obtain ⟨hi, _⟩ := closestSeedIndex_spec (triangleCentroid t) seeds h
  exact hi

/-- Counting a triangle inside one bucket: the bucket for seed `k` holds all
copies of `t` when `t` is assigned to `k`, and none otherwise. -/
theorem count_filter_bucket (seeds : List Vec3) (k : Nat) (t : Triangle)
    (tris : List Triangle) :
    (tris.filter fun u => bucketOf seeds u = k).count t
      = if bucketOf seeds t = k then tris.count t else 0 := by
  induction tris with
  | nil => simp
  | cons u tris ih =>
      by_cases hu : bucketOf seeds u = k
      · by_cases ht : t = u
        · subst ht
          simp [List.filter_cons, hu, List.count_cons, ih]
        · simp [List.filter_cons, hu, List.count_cons, ih, ht]
      · by_cases ht : t = u
        · subst ht
          simp [List.filter_cons, hu, List.count_cons, ih]
        · simp [List.filter_cons, hu, List.count_cons, ih, ht]

/-- Summing an indicator over `List.range`. -/
theorem sum_range_indicator (m C : Nat) :
    ∀ n : Nat, ((List.range n).map fun k => if m = k then C else 0).sum
      = if m < n then C else 0 := by
  intro n
  induction n with
  | zero => simp
  | succ n ih =>
      rw [List.range_succ, List.map_append, List.sum_append, ih]
      by_cases h : m < n
      · have h1 : m ≠ n := Nat.ne_of_lt h
        have h2 : m < n + 1 := Nat.lt_succ_of_lt h
        simp [h, h1, h2]
      · by_cases h2 : m = n
        · subst h2; simp [h]
        · have h3 : ¬ m < n + 1 := by omega
          simp [h, h2, h3]

/-- C1 — Partition coverage: with at least one seed, every input triangle is
placed into exactly one bucket by the partition loop of `shatterMesh`: summed
over all buckets, each triangle occurs exactly as often as in the input, so
the union of the buckets' triangle multisets is the input triangle multiset,
with nothing duplicated or dropped (prior to the point-count drop rule). -/
theorem partition_coverage (tris : List Triangle) (seeds : List Vec3)
    (h : seeds ≠ []) (t : Triangle) :
    ((partitionBuckets tris seeds).map fun b => b.count t).sum = tris.count t := by
  unfold partitionBuckets
  rw [List.map_map]
  have hmaps : ((List.range seeds.length).map
      ((fun b => b.count t) ∘ fun k => tris.filter fun u => bucketOf seeds u = k))
      = (List.range seeds.length).map fun k =>
          if bucketOf seeds t = k then tris.count t else 0 := by
    apply List.map_congr_left
    intro k _
    exact count_filter_bucket seeds k t tris
  rw [hmaps, sum_range_indicator]
  simp [bucketOf_lt seeds h t]

/-- C1 witness: a concrete two-triangle mesh partitioned over two seeds. -/
theorem partition_coverage_witness :
    ((partitionBuckets
          [⟨⟨0,0,0⟩,⟨1,0,0⟩,⟨0,1,0⟩⟩, ⟨⟨9,9,9⟩,⟨10,9,9⟩,⟨9,10,9⟩⟩]
          [⟨0,0,0⟩, ⟨9,9,9⟩]).map
        fun b => b.count ⟨⟨0,0,0⟩,⟨1,0,0⟩,⟨0,1,0⟩⟩).sum
      = ([⟨⟨0,0,0⟩,⟨1,0,0⟩,⟨0,1,0⟩⟩, ⟨⟨9,9,9⟩,⟨10,9,9⟩,⟨9,10,9⟩⟩] :
          List Triangle).count ⟨⟨0,0,0⟩,⟨1,0,0⟩,⟨0,1,0⟩⟩ :=
  partition_coverage
    [⟨⟨0,0,0⟩,⟨1,0,0⟩,⟨0,1,0⟩⟩, ⟨⟨9,9,9⟩,⟨10,9,9⟩,⟨9,10,9⟩⟩]
    [⟨0,0,0⟩, ⟨9,9,9⟩] (List.cons_ne_nil _ _) ⟨⟨0,0,0⟩,⟨1,0,0⟩,⟨0,1,0⟩⟩

/-- C2 — Nearest-seed correctness: the seed index chosen by the partition
loop's scan minimises squared Euclidean distance from the triangle centroid
over all seeds, and any seed attaining a distance no larger than the chosen
one has an index no smaller (ties go to the lowest index). -/
theorem nearest_seed_assignment (c : Vec3) (seeds : List Vec3)
    (hi : closestSeedIndex c seeds < seeds.length)
    (j : Nat) (hj : j < seeds.length) :
    distanceToSquared c (seeds.get ⟨closestSeedIndex c seeds, hi⟩)
      ≤ distanceToSquared c (seeds.get ⟨j, hj⟩)
    ∧ (distanceToSquared c (seeds.get ⟨j, hj⟩)
        ≤ distanceToSquared c (seeds.get ⟨closestSeedIndex c seeds, hi⟩)
       → closestSeedIndex c seeds ≤ j) := by
  have hne : seeds ≠ [] := by
    intro he
    rw [he] at hi
    exact absurd hi (Nat.not_lt_zero _)
  obtain ⟨hi2, hmin, hstrict⟩ := closestSeedIndex_spec c seeds hne
  refine ⟨hmin j hj, fun hd => ?_⟩
  by_contra hcon
  have hjlt : j < closestSeedIndex c seeds := Nat.lt_of_not_le hcon
  exact absurd (lt_of_lt_of_le (hstrict j hjlt hj) hd) (lt_irrefl _)

/-- C2 witness: a centroid equidistant from two seeds is assigned to the
seed of lower index. -/
theorem nearest_seed_assignment_witness :
    distanceToSquared ⟨0,0,0⟩
        (([⟨1,0,0⟩, ⟨-1,0,0⟩] : List Vec3).get
          ⟨closestSeedIndex ⟨0,0,0⟩ [⟨1,0,0⟩, ⟨-1,0,0⟩],
           by norm_num [closestSeedIndex, scanSeeds, distanceToSquared]⟩)
      ≤ distanceToSquared ⟨0,0,0⟩ (([⟨1,0,0⟩, ⟨-1,0,0⟩] : List Vec3).get ⟨1, by norm_num⟩)
    ∧ (distanceToSquared ⟨0,0,0⟩ (([⟨1,0,0⟩, ⟨-1,0,0⟩] : List Vec3).get ⟨1, by norm_num⟩)
        ≤ distanceToSquared ⟨0,0,0⟩
            (([⟨1,0,0⟩, ⟨-1,0,0⟩] : List Vec3).get
              ⟨closestSeedIndex ⟨0,0,0⟩ [⟨1,0,0⟩, ⟨-1,0,0⟩],
               by norm_num [closestSeedIndex, scanSeeds, distanceToSquared]⟩)
       → closestSeedIndex ⟨0,0,0⟩ [⟨1,0,0⟩, ⟨-1,0,0⟩] ≤ 1) :=
  nearest_seed_assignment ⟨0,0,0⟩ [⟨1,0,0⟩, ⟨-1,0,0⟩]
    (by norm_num [closestSeedIndex, scanSeeds, distanceToSquared]) 1 (by norm_num)

/-- The nine flattened position components a triangle contributes to its
bucket (shatterEngine.ts lines 69-71). -/
def trianglePositions (t : Triangle) : List ℚ :=
  [t.a.x, t.a.y, t.a.z, t.b.x, t.b.y, t.b.z, t.c.x, t.c.y, t.c.z]

/-- The flat position array of a bucket, in assignment order. -/
def bucketPositions (b : List Triangle) : List ℚ :=
  (b.map trianglePositions).flatten

/-- The point list of a bucket: the three vertices of every assigned triangle
are pushed (shatterEngine.ts line 73), with multiplicity — the source never
deduplicates this list. -/
def bucketPts (b : List Triangle) : List Vec3 :=
  (b.map fun t => [t.a, t.b, t.c]).flatten

/-- The geometry carried by a built fragment: its flat position buffer. -/
structure FragGeometry where
  positions : List ℚ
deriving DecidableEq, Repr

/-- One iteration of the fragment-building loop (shatterEngine.ts lines
79-97), specialised to the geometry it constructs.  `hull` abstracts the
three.js `ConvexGeometry` constructor: `hull pts = none` models the
constructor throwing, which line 88 catches, falling back to the shell built
from the bucket's own position array; `none` as the overall result models the
early `return` that drops a bucket with fewer than 4 points. -/
def buildFragment (hull : List Vec3 → Option (List ℚ)) (makeSolid : Bool)
    (b : List Triangle) : Option FragGeometry :=
  if (bucketPts b).length < 4 then none
  else if makeSolid then
    match hull (bucketPts b) with
    | some ps => some ⟨ps⟩
    | none => some ⟨bucketPositions b⟩
  else some ⟨bucketPositions b⟩

/-- The fragment list `shatterMesh` returns: each bucket is built in order and
dropped buckets contribute nothing. -/
def shatterFragments (hull : List Vec3 → Option (List ℚ)) (makeSolid : Bool)
    (tris : List Triangle) (seeds : List Vec3) : List FragGeometry :=
  (partitionBuckets tris seeds).filterMap (buildFragment hull makeSolid)

/-- Every triangle contributes exactly three (multiplicity-counted) points. -/
theorem bucketPts_length (b : List Triangle) :
    (bucketPts b).length = 3 * b.length := by
  induction b with
  | nil => rfl
  | cons t b ih =>
      rw [show bucketPts (t :: b) = [t.a, t.b, t.c] ++ bucketPts b from rfl,
        List.length_append, ih]
      simp only [List.length_cons, List.length_nil]
      omega

/-- C3 counterexample: a bucket made of the same triangle twice spans only 3
distinct points, yet the builder produces a fragment for it (the length check
of line 80 counts the 6 pushed points with multiplicity), refuting the claim
that fewer than 4 distinct points always drop the bucket. -/
theorem drop_rule_distinct_counterexample :
    (bucketPts [⟨⟨0,0,0⟩,⟨1,0,0⟩,⟨0,1,0⟩⟩, ⟨⟨0,0,0⟩,⟨1,0,0⟩,⟨0,1,0⟩⟩]).dedup.length < 4
    ∧ buildFragment (fun _ => none) true
        [⟨⟨0,0,0⟩,⟨1,0,0⟩,⟨0,1,0⟩⟩, ⟨⟨0,0,0⟩,⟨1,0,0⟩,⟨0,1,0⟩⟩] ≠ none := by
  constructor
  · norm_num [bucketPts, List.dedup_cons_of_mem, List.dedup_cons_of_not_mem,
      Vec3.mk.injEq]
  · simp [buildFragment, bucketPts]

/-- C3 amended: the drop rule counts the bucket's pushed points with
multiplicity: whenever that raw point list has fewer than 4 entries the
builder produces no fragment, whatever the hull behaviour and solid flag. -/
theorem drop_rule_multiplicity (hull : List Vec3 → Option (List ℚ))
    (makeSolid : Bool) (b : List Triangle)
    (h : (bucketPts b).length < 4) :
    buildFragment hull makeSolid b = none := by
  simp [buildFragment, h]

/-- C3 amended witness: a single-triangle bucket (3 points) is dropped. -/
theorem drop_rule_multiplicity_witness :
    buildFragment (fun _ => none) true [⟨⟨0,0,0⟩,⟨1,0,0⟩,⟨0,1,0⟩⟩] = none :=
  drop_rule_multiplicity (fun _ => none) true [⟨⟨0,0,0⟩,⟨1,0,0⟩,⟨0,1,0⟩⟩]
    (by norm_num [bucketPts])

/-- C9 — Hull-failure fallback: when a bucket passes the point-count check in
solid mode and hull construction fails (throws), the builder still produces a
fragment, whose geometry is the shell built from the bucket's original
triangle positions unchanged; the failure is never fatal and never drops the
fragment. -/
theorem hull_failure_fallback (hull : List Vec3 → Option (List ℚ))
    (b : List Triangle) (h4 : 4 ≤ (bucketPts b).length)
    (hfail : hull (bucketPts b) = none) :
    buildFragment hull true b = some ⟨bucketPositions b⟩ := by
  simp [buildFragment, Nat.not_lt.mpr h4, hfail]

/-- C9 witness: a two-triangle bucket with an always-failing hull still
yields the shell fragment. -/
theorem hull_failure_fallback_witness :
    buildFragment (fun _ => none) true
        [⟨⟨0,0,0⟩,⟨1,0,0⟩,⟨0,1,0⟩⟩, ⟨⟨0,0,1⟩,⟨1,0,1⟩,⟨0,1,1⟩⟩]
      = some ⟨bucketPositions
          [⟨⟨0,0,0⟩,⟨1,0,0⟩,⟨0,1,0⟩⟩, ⟨⟨0,0,1⟩,⟨1,0,1⟩,⟨0,1,1⟩⟩]⟩ :=
  hull_failure_fallback (fun _ => none)
    [⟨⟨0,0,0⟩,⟨1,0,0⟩,⟨0,1,0⟩⟩, ⟨⟨0,0,1⟩,⟨1,0,1⟩,⟨0,1,1⟩⟩]
    (by norm_num [bucketPts]) rfl

/-- C10 — Implicit point-count behaviour: the builder counts bucket points
with multiplicity (three per triangle), so a fragment is produced exactly when
the bucket holds at least two triangles — regardless of how many distinct
vertices those triangles span and of the hull outcome — and the fragment list
returned for any mesh never exceeds the seed count. -/
theorem fragment_iff_two_triangles :
    (∀ (hull : List Vec3 → Option (List ℚ)) (makeSolid : Bool)
        (b : List Triangle),
      (buildFragment hull makeSolid b).isSome = true ↔ 2 ≤ b.length)
    ∧ ∀ (hull : List Vec3 → Option (List ℚ)) (makeSolid : Bool)
        (tris : List Triangle) (seeds : List Vec3),
      (shatterFragments hull makeSolid tris seeds).length ≤ seeds.length := by
  constructor
  · intro hull makeSolid b
    by_cases h : (bucketPts b).length < 4
    · have hb : ¬ 2 ≤ b.length := by
        rw [bucketPts_length] at h
        omega
      simp [buildFragment, h, hb]
    · have hb : 2 ≤ b.length := by
        rw [bucketPts_length] at h
        omega
      cases hsolid : makeSolid
      · simp [buildFragment, h, hb]
      · cases hhull : hull (bucketPts b) <;> simp [buildFragment, h, hb, hhull]
  · intro hull makeSolid tris seeds
    calc (shatterFragments hull makeSolid tris seeds).length
        ≤ (partitionBuckets tris seeds).length := List.length_filterMap_le _ _
      _ = seeds.length := by simp [partitionBuckets]

/-- A projected point in normalised device coordinates (the result of
`Vector3.project(camera)` restricted to its x/y components). -/
structure NDC where
  x : ℚ
  y : ℚ
deriving DecidableEq, Repr

/-- The running min/max state of the corner loops in `generateDataset` and
`calculate2DBboxes`. -/
structure Rect where
  minX : ℚ
  minY : ℚ
  maxX : ℚ
  maxY : ℚ
deriving DecidableEq, Repr

/-- The corner fold shared by both projection paths: each projected corner
updates the running minima and maxima. -/
def rectFold (r : Rect) : List NDC → Rect
  | [] => r
  | c :: cs =>
      rectFold ⟨min r.minX c.x, min r.minY c.y, max r.maxX c.x, max r.maxY c.y⟩ cs

/-- The screen-space rectangle of a list of projected corners, starting from
the source's initial values `minX = 1, minY = 1, maxX = -1, maxY = -1`. -/
def cornerRect (cs : List NDC) : Rect :=
  rectFold ⟨1, 1, -1, -1⟩ cs

/-- A YOLO annotation record: normalised centre and dimensions. -/
structure Yolo where
  cx : ℚ
  cy : ℚ
  w : ℚ
  h : ℚ
deriving DecidableEq, Repr

/-- The per-fragment annotation step of `generateDataset` (Viewer.tsx lines
306-328): gate on the clamped rectangle, clip to the unit range, emit the
normalised centre/size record; `none` models the fragment being skipped. -/
def yoloRecord (cs : List NDC) : Option Yolo :=
  let r := cornerRect cs
  if -1 < r.maxX ∧ r.minX < 1 ∧ -1 < r.maxY ∧ r.minY < 1 then
    let normMinX := max 0 ((r.minX + 1) / 2)
    let normMaxX := min 1 ((r.maxX + 1) / 2)
    let normMinY := max 0 ((1 - r.maxY) / 2)
    let normMaxY := min 1 ((1 - r.minY) / 2)
    some ⟨normMinX + (normMaxX - normMinX) / 2,
          normMinY + (normMaxY - normMinY) / 2,
          normMaxX - normMinX,
          normMaxY - normMinY⟩
  else none

/-- A 2D overlay box as produced by `calculate2DBboxes`. -/
structure Box2D where
  left : ℚ
  top : ℚ
  width : ℚ
  height : ℚ
deriving DecidableEq, Repr

/-- The per-fragment body of `calculate2DBboxes` (Viewer.tsx lines 515-547):
`screenPos` is the projected NDC position of the fragment's bounding-box
centre, `cs` its projected corners, `width`/`height` the viewport size; the
centre prefilter uses the constant 1.2 = 6/5 and the emitted box is the pixel
rectangle without any clipping to the visible range. -/
def fragmentBox2D (screenPos : NDC) (cs : List NDC) (width height : ℚ) :
    Option Box2D :=
  if 6/5 < |screenPos.x| ∨ 6/5 < |screenPos.y| then none
  else
    let r := cornerRect cs
    let left := (r.minX + 1) / 2 * width
    let right := (r.maxX + 1) / 2 * width
    let top := (1 - r.maxY) / 2 * height
    let bottom := (1 - r.minY) / 2 * height
    if 0 < right ∧ left < width ∧ 0 < bottom ∧ top < height then
      some ⟨left, top, right - left, bottom - top⟩
    else none

/-- Folding can only shrink the running minimum. -/
theorem rectFold_minX_le (cs : List NDC) :
    ∀ r : Rect, (rectFold r cs).minX ≤ r.minX := by
  induction cs with
  | nil => intro r; exact le_refl _
  | cons c cs ih => intro r; exact le_trans (ih _) (min_le_left _ _)

/-- Folding can only shrink the running minimum (y axis). -/
theorem rectFold_minY_le (cs : List NDC) :
    ∀ r : Rect, (rectFold r cs).minY ≤ r.minY := by
  induction cs with
  | nil => intro r; exact le_refl _
  | cons c cs ih => intro r; exact le_trans (ih _) (min_le_left _ _)

/-- Folding can only grow the running maximum. -/
theorem rectFold_le_maxX (cs : List NDC) :
    ∀ r : Rect, r.maxX ≤ (rectFold r cs).maxX := by
  induction cs with
  | nil => intro r; exact le_refl _
  | cons c cs ih => intro r; exact le_trans (le_max_left _ _) (ih _)

/-- Folding can only grow the running maximum (y axis). -/
theorem rectFold_le_maxY (cs : List NDC) :
    ∀ r : Rect, r.maxY ≤ (rectFold r cs).maxY := by
  induction cs with
  | nil => intro r; exact le_refl _
  | cons c cs ih => intro r; exact le_trans (le_max_left _ _) (ih _)

/-- An upper bound on all corner x values and on the accumulator bounds the
folded maximum. -/
theorem rectFold_maxX_le (a : ℚ) (cs : List NDC) (hall : ∀ c ∈ cs, c.x ≤ a) :
    ∀ r : Rect, r.maxX ≤ a → (rectFold r cs).maxX ≤ a := by
  induction cs with
  | nil => intro r hr; exact hr
  | cons c cs ih =>
      intro r hr
      exact ih (fun d hd => hall d (List.mem_cons_of_mem c hd)) _
        (max_le hr (hall c (List.mem_cons_self c cs)))

/-- A lower bound on all corner x values and on the accumulator bounds the
folded minimum. -/
theorem rectFold_le_minX (a : ℚ) (cs : List NDC) (hall : ∀ c ∈ cs, a ≤ c.x) :
    ∀ r : Rect, a ≤ r.minX → a ≤ (rectFold r cs).minX := by
  induction cs with
  | nil => intro r hr; exact hr
  | cons c cs ih =>
      intro r hr
      exact ih (fun d hd => hall d (List.mem_cons_of_mem c hd)) _
        (le_min hr (hall c (List.mem_cons_self c cs)))

/-- An upper bound on all corner y values and on the accumulator bounds the
folded maximum (y axis). -/
theorem rectFold_maxY_le (a : ℚ) (cs : List NDC) (hall : ∀ c ∈ cs, c.y ≤ a) :
    ∀ r : Rect, r.maxY ≤ a → (rectFold r cs).maxY ≤ a := by
  induction cs with
  | nil => intro r hr; exact hr
  | cons c cs ih =>
      intro r hr
      exact ih (fun d hd => hall d (List.mem_cons_of_mem c hd)) _
        (max_le hr (hall c (List.mem_cons_self c cs)))

/-- A lower bound on all corner y values and on the accumulator bounds the
folded minimum (y axis). -/
theorem rectFold_le_minY (a : ℚ) (cs : List NDC) (hall : ∀ c ∈ cs, a ≤ c.y) :
    ∀ r : Rect, a ≤ r.minY → a ≤ (rectFold r cs).minY := by
  induction cs with
  | nil => intro r hr; exact hr
  | cons c cs ih =>
      intro r hr
      exact ih (fun d hd => hall d (List.mem_cons_of_mem c hd)) _
        (le_min hr (hall c (List.mem_cons_self c cs)))

/-- Folding preserves a well-ordered accumulator. -/
theorem rectFold_ordered (cs : List NDC) :
    ∀ r : Rect, r.minX ≤ r.maxX → r.minY ≤ r.maxY →
      (rectFold r cs).minX ≤ (rectFold r cs).maxX
      ∧ (rectFold r cs).minY ≤ (rectFold r cs).maxY := by
  induction cs with
  | nil => intro r hx hy; exact ⟨hx, hy⟩
  | cons c cs ih =>
      intro r hx hy
      exact ih _ (le_trans (min_le_right _ _) (le_max_right _ _))
        (le_trans (min_le_right _ _) (le_max_right _ _))

/-- On a nonempty corner list the rectangle is well ordered on both axes. -/
theorem cornerRect_ordered (cs : List NDC) (h : cs ≠ []) :
    (cornerRect cs).minX ≤ (cornerRect cs).maxX
    ∧ (cornerRect cs).minY ≤ (cornerRect cs).maxY := by
  match cs, h with
  | c :: cs, _ =>
    have hstep : cornerRect (c :: cs)
        = rectFold ⟨min 1 c.x, min 1 c.y, max (-1) c.x, max (-1) c.y⟩ cs := rfl
    rw [hstep]
    exact rectFold_ordered cs _
      (le_trans (min_le_right _ _) (le_max_right _ _))
      (le_trans (min_le_right _ _) (le_max_right _ _))

/-- C6 — Projection clip law for dataset annotations: when the projected
corners lie entirely outside the frustum square on some axis no YOLO line is
emitted, and every emitted record is clipped to the visible range: centre,
width and height all lie in [0,1], width and height are nonnegative, and the
box never exceeds the image bounds on either side. -/
theorem projection_clip_law (cs : List NDC) :
    (((∀ c ∈ cs, c.x < -1) ∨ (∀ c ∈ cs, 1 < c.x)
        ∨ (∀ c ∈ cs, c.y < -1) ∨ (∀ c ∈ cs, 1 < c.y))
      → yoloRecord cs = none)
    ∧ ∀ y : Yolo, yoloRecord cs = some y →
        0 ≤ y.cx ∧ y.cx ≤ 1 ∧ 0 ≤ y.cy ∧ y.cy ≤ 1
        ∧ 0 ≤ y.w ∧ y.w ≤ 1 ∧ 0 ≤ y.h ∧ y.h ≤ 1
        ∧ 0 ≤ y.cx - y.w / 2 ∧ y.cx + y.w / 2 ≤ 1
        ∧ 0 ≤ y.cy - y.h / 2 ∧ y.cy + y.h / 2 ≤ 1 := by
  constructor
  · intro hout
    simp only [yoloRecord]
    split_ifs with hg
    · exfalso
      obtain ⟨hg1, hg2, hg3, hg4⟩ := hg
      rcases hout with hall | hall | hall | hall
      · have hb := rectFold_maxX_le (-1) cs
          (fun c hc => le_of_lt (hall c hc)) ⟨1, 1, -1, -1⟩ (le_refl _)
        exact absurd hg1 (not_lt.mpr hb)
      · have hb := rectFold_le_minX 1 cs
          (fun c hc => le_of_lt (hall c hc)) ⟨1, 1, -1, -1⟩ (le_refl _)
        exact absurd hg2 (not_lt.mpr hb)
      · have hb := rectFold_maxY_le (-1) cs
          (fun c hc => le_of_lt (hall c hc)) ⟨1, 1, -1, -1⟩ (le_refl _)
        exact absurd hg3 (not_lt.mpr hb)
      · have hb := rectFold_le_minY 1 cs
          (fun c hc => le_of_lt (hall c hc)) ⟨1, 1, -1, -1⟩ (le_refl _)
        exact absurd hg4 (not_lt.mpr hb)
    · rfl
  · intro y hy
    simp only [yoloRecord] at hy
    split_ifs at hy with hg
    · obtain ⟨hg1, hg2, hg3, hg4⟩ := hg
      have hne : cs ≠ [] := by
        intro h0
        subst h0
        simp only [cornerRect, rectFold] at hg1
        exact absurd hg1 (lt_irrefl _)
      obtain ⟨hordx, hordy⟩ := cornerRect_ordered cs hne
      have hminXle : (cornerRect cs).minX ≤ 1 := rectFold_minX_le cs _
      have hmaxXge : (-1 : ℚ) ≤ (cornerRect cs).maxX := rectFold_le_maxX cs _
      have hminYle : (cornerRect cs).minY ≤ 1 := rectFold_minY_le cs _
      have hmaxYge : (-1 : ℚ) ≤ (cornerRect cs).maxY := rectFold_le_maxY cs _
      set a := max 0 (((cornerRect cs).minX + 1) / 2) with ha
      set b := min 1 (((cornerRect cs).maxX + 1) / 2) with hb
      set A := max 0 ((1 - (cornerRect cs).maxY) / 2) with hA
      set B := min 1 ((1 - (cornerRect cs).minY) / 2) with hB
      have h0a : 0 ≤ a := by rw [ha]; exact le_max_left _ _
      have ha1 : a ≤ 1 := by
        rw [ha]; exact max_le (by norm_num) (by linarith)
      have h0b : 0 ≤ b := by
        rw [hb]; exact le_min (by norm_num) (by linarith)
      have hb1 : b ≤ 1 := by rw [hb]; exact min_le_left _ _
      have hab : a ≤ b := by
        rw [ha, hb]
        exact max_le (by rw [hb] at h0b; exact h0b)
          (le_min (by linarith) (by linarith))
      have h0A : 0 ≤ A := by rw [hA]; exact le_max_left _ _
      have hA1 : A ≤ 1 := by
        rw [hA]; exact max_le (by norm_num) (by linarith)
      have h0B : 0 ≤ B := by
        rw [hB]; exact le_min (by norm_num) (by linarith)
      have hB1 : B ≤ 1 := by rw [hB]; exact min_le_left _ _
      have hAB : A ≤ B := by
        rw [hA, hB]
        exact max_le (by rw [hB] at h0B; exact h0B)
          (le_min (by linarith) (by linarith))
      obtain rfl := (Option.some.inj hy)
      refine ⟨?_, ?_, ?_, ?_, ?_, ?_, ?_, ?_, ?_, ?_, ?_, ?_⟩ <;>
        dsimp only <;> linarith

/-- C6 witness: a corner set wholly left of the frustum is rejected, and an
in-view corner set yields the record (1/2, 1/2, 1/2, 1/2), which satisfies
every bound. -/
theorem projection_clip_law_witness :
    yoloRecord [⟨-2, 0⟩, ⟨-3, 0⟩] = none
    ∧ (0 ≤ (1/2 : ℚ) ∧ (1/2 : ℚ) ≤ 1 ∧ 0 ≤ (1/2 : ℚ) ∧ (1/2 : ℚ) ≤ 1
       ∧ 0 ≤ (1/2 : ℚ) ∧ (1/2 : ℚ) ≤ 1 ∧ 0 ≤ (1/2 : ℚ) ∧ (1/2 : ℚ) ≤ 1
       ∧ 0 ≤ (1/2 : ℚ) - (1/2 : ℚ) / 2 ∧ (1/2 : ℚ) + (1/2 : ℚ) / 2 ≤ 1
       ∧ 0 ≤ (1/2 : ℚ) - (1/2 : ℚ) / 2 ∧ (1/2 : ℚ) + (1/2 : ℚ) / 2 ≤ 1) :=
  ⟨(projection_clip_law [⟨-2, 0⟩, ⟨-3, 0⟩]).1
      (Or.inl (by norm_num [List.forall_mem_cons])),
   (projection_clip_law [⟨-1/2, -1/2⟩, ⟨1/2, 1/2⟩]).2 ⟨1/2, 1/2, 1/2, 1/2⟩
      (by norm_num [yoloRecord, cornerRect, rectFold, min_def, max_def])⟩

/-- C7 counterexample: eight projected corners whose rectangle straddles the
right frustum edge (part of it is visible), while the box-centre projection
falls outside the 1.2 prefilter of `calculate2DBboxes`: the code emits no box
for this fragment, refuting the claim that partial visibility is never
rejected. -/
theorem partial_visibility_counterexample :
    ((cornerRect [⟨9/10, -1/10⟩, ⟨9/10, -1/10⟩, ⟨9/10, 1/10⟩, ⟨9/10, 1/10⟩,
        ⟨3, -1/10⟩, ⟨3, -1/10⟩, ⟨3, 1/10⟩, ⟨3, 1/10⟩]).minX < 1
      ∧ -1 < (cornerRect [⟨9/10, -1/10⟩, ⟨9/10, -1/10⟩, ⟨9/10, 1/10⟩, ⟨9/10, 1/10⟩,
          ⟨3, -1/10⟩, ⟨3, -1/10⟩, ⟨3, 1/10⟩, ⟨3, 1/10⟩]).maxX
      ∧ (cornerRect [⟨9/10, -1/10⟩, ⟨9/10, -1/10⟩, ⟨9/10, 1/10⟩, ⟨9/10, 1/10⟩,
          ⟨3, -1/10⟩, ⟨3, -1/10⟩, ⟨3, 1/10⟩, ⟨3, 1/10⟩]).minY < 1
      ∧ -1 < (cornerRect [⟨9/10, -1/10⟩, ⟨9/10, -1/10⟩, ⟨9/10, 1/10⟩, ⟨9/10, 1/10⟩,
          ⟨3, -1/10⟩, ⟨3, -1/10⟩, ⟨3, 1/10⟩, ⟨3, 1/10⟩]).maxY)
    ∧ fragmentBox2D ⟨3/2, 0⟩
        [⟨9/10, -1/10⟩, ⟨9/10, -1/10⟩, ⟨9/10, 1/10⟩, ⟨9/10, 1/10⟩,
         ⟨3, -1/10⟩, ⟨3, -1/10⟩, ⟨3, 1/10⟩, ⟨3, 1/10⟩] 100 100 = none := by
  constructor
  · norm_num [cornerRect, rectFold, min_def, max_def]
  · have h32 : |(3/2 : ℚ)| = 3/2 := abs_of_pos (by norm_num)
    norm_num [fragmentBox2D, h32]

/-- C7 amended: in `calculate2DBboxes` a fragment is emitted when its
projected box-centre NDC lies within 1.2 in absolute value on both axes and
its corner rectangle overlaps the frustum square — but the emitted box is the
unclipped corner rectangle scaled to pixel space (left/top may be negative and
right/bottom may exceed the viewport); a fragment whose centre projection
violates the 1.2 prefilter is omitted even when partially visible. -/
theorem emitted_box_unclipped (screenPos : NDC) (cs : List NDC)
    (width height : ℚ)
    (hsx : |screenPos.x| ≤ 6/5) (hsy : |screenPos.y| ≤ 6/5)
    (hw : 0 < width) (hh : 0 < height)
    (h1 : (cornerRect cs).minX < 1) (h2 : -1 < (cornerRect cs).maxX)
    (h3 : (cornerRect cs).minY < 1) (h4 : -1 < (cornerRect cs).maxY) :
    fragmentBox2D screenPos cs width height
      = some ⟨((cornerRect cs).minX + 1) / 2 * width,
              (1 - (cornerRect cs).maxY) / 2 * height,
              ((cornerRect cs).maxX + 1) / 2 * width
                - ((cornerRect cs).minX + 1) / 2 * width,
              (1 - (cornerRect cs).minY) / 2 * height
                - (1 - (cornerRect cs).maxY) / 2 * height⟩ := by
  simp only [fragmentBox2D]
  rw [if_neg, if_pos]
  · refine ⟨?_, ?_, ?_, ?_⟩
    · have hx : (0 : ℚ) < ((cornerRect cs).maxX + 1) / 2 := by linarith
      exact mul_pos hx hw
    · have hx : ((cornerRect cs).minX + 1) / 2 < 1 := by linarith
      calc ((cornerRect cs).minX + 1) / 2 * width
          < 1 * width := by
            exact mul_lt_mul_of_pos_right hx hw
        _ = width := one_mul width
    · have hy : (0 : ℚ) < (1 - (cornerRect cs).minY) / 2 := by linarith
      exact mul_pos hy hh
    · have hy : (1 - (cornerRect cs).maxY) / 2 < 1 := by linarith
      calc (1 - (cornerRect cs).maxY) / 2 * height
          < 1 * height := by
            exact mul_lt_mul_of_pos_right hy hh
        _ = height := one_mul height
  · push_neg
    exact ⟨hsx, hsy⟩

/-- C7 amended witness: a rectangle straddling the left frustum edge with an
in-range centre is emitted as an unclipped pixel box with negative left
coordinate. -/
theorem emitted_box_unclipped_witness :
    fragmentBox2D ⟨0, 0⟩
        [⟨-3, -1/2⟩, ⟨-3, -1/2⟩, ⟨-3, 1/2⟩, ⟨-3, 1/2⟩,
         ⟨1/2, -1/2⟩, ⟨1/2, -1/2⟩, ⟨1/2, 1/2⟩, ⟨1/2, 1/2⟩] 100 100
      = some ⟨-100, 25, 175, 50⟩ := by
  rw [emitted_box_unclipped ⟨0, 0⟩
      [⟨-3, -1/2⟩, ⟨-3, -1/2⟩, ⟨-3, 1/2⟩, ⟨-3, 1/2⟩,
       ⟨1/2, -1/2⟩, ⟨1/2, -1/2⟩, ⟨1/2, 1/2⟩, ⟨1/2, 1/2⟩] 100 100
      (by norm_num) (by norm_num) (by norm_num) (by norm_num)
      (by norm_num [cornerRect, rectFold, min_def, max_def])
      (by norm_num [cornerRect, rectFold, min_def, max_def])
      (by norm_num [cornerRect, rectFold, min_def, max_def])
      (by norm_num [cornerRect, rectFold, min_def, max_def])]
  norm_num [cornerRect, rectFold, min_def, max_def]

/-- A 3D vector over `ℝ`, for the pose/quaternion pipeline where the source
calls trigonometric functions and square roots. -/
@[ext]
structure RV3 where
  x : ℝ
  y : ℝ
  z : ℝ

/-- A quaternion in three.js component order (x, y, z, w). -/
@[ext]
structure Quat where
  x : ℝ
  y : ℝ
  z : ℝ
  w : ℝ

/-- three.js `Vector3.add`, componentwise. -/
def RV3.add (a b : RV3) : RV3 :=
  ⟨a.x + b.x, a.y + b.y, a.z + b.z⟩

/-- three.js `Vector3.sub`, componentwise. -/
def RV3.sub (a b : RV3) : RV3 :=
  ⟨a.x - b.x, a.y - b.y, a.z - b.z⟩

/-- three.js `Vector3.multiplyScalar`. -/
def RV3.smul (a : RV3) (s : ℝ) : RV3 :=
  ⟨a.x * s, a.y * s, a.z * s⟩

/-- three.js `Vector3.lerp`: each component becomes
`this + (v - this) * alpha`. -/
def RV3.lerpTo (a b : RV3) (t : ℝ) : RV3 :=
  ⟨a.x + (b.x - a.x) * t, a.y + (b.y - a.y) * t, a.z + (b.z - a.z) * t⟩

/-- three.js `Vector3.length`. -/
noncomputable def RV3.len (v : RV3) : ℝ :=
  Real.sqrt (v.x ^ 2 + v.y ^ 2 + v.z ^ 2)

/-- three.js `Vector3.normalize`: `divideScalar(this.length() || 1)` — the
JavaScript `||` turns a zero length into the divisor 1, so the division is
always defined. -/
noncomputable def RV3.normalize (v : RV3) : RV3 :=
  let l := if v.len = 0 then 1 else v.len
  ⟨v.x / l, v.y / l, v.z / l⟩

/-- three.js `Quaternion.setFromAxisAngle` (axis assumed normalised): the
half-angle sine scales the axis and the half-angle cosine is the scalar
part. -/
noncomputable def Quat.setFromAxisAngle (axis : RV3) (angle : ℝ) : Quat :=
  ⟨axis.x * Real.sin (angle / 2), axis.y * Real.sin (angle / 2),
   axis.z * Real.sin (angle / 2), Real.cos (angle / 2)⟩

/-- three.js `Quaternion.setFromEuler` for the default rotation order XYZ,
used by the viewer for `originalRotation`. -/
noncomputable def Quat.setFromEulerXYZ (e : RV3) : Quat :=
  let c1 := Real.cos (e.x / 2)
  let c2 := Real.cos (e.y / 2)
  let c3 := Real.cos (e.z / 2)
  let s1 := Real.sin (e.x / 2)
  let s2 := Real.sin (e.y / 2)
  let s3 := Real.sin (e.z / 2)
  ⟨s1 * c2 * c3 + c1 * s2 * s3,
   c1 * s2 * c3 - s1 * c2 * s3,
   c1 * c2 * s3 + s1 * s2 * c3,
   c1 * c2 * c3 - s1 * s2 * s3⟩

/-- three.js `Quaternion.multiplyQuaternions(a, b)`: the component formula of
the product `a * b` as written in the library. -/
def Quat.mulq (a b : Quat) : Quat :=
  ⟨a.x * b.w + a.w * b.x + a.y * b.z - a.z * b.y,
   a.y * b.w + a.w * b.y + a.z * b.x - a.x * b.z,
   a.z * b.w + a.w * b.z + a.x * b.y - a.y * b.x,
   a.w * b.w - a.x * b.x - a.y * b.y - a.z * b.z⟩

/-- The per-fragment state `updateTransformations` reads: the relevant fields
of `FragmentData` (originalRotation held as XYZ Euler angles). -/
structure FragmentPose where
  originalPosition : RV3
  targetVolumePosition : RV3
  direction : RV3
  originalRotation : RV3
  rotationAxis : RV3

/-- The transform written onto a fragment's mesh by one update. -/
structure MeshPose where
  position : RV3
  quaternion : Quat

/-- One fragment's update in `updateTransformations` (Viewer.tsx lines
492-504): lerp toward the volume target or translate along the direction
scaled by `force * 12`, then compose the axis-angle spin quaternion (angle
`force * 15 * rotForce`) with the quaternion of the rest Euler rotation. -/
noncomputable def updateTransformations (useVolume : Bool) (f : FragmentPose)
    (force rotForce : ℝ) : MeshPose :=
  let pos := if useVolume then f.originalPosition.lerpTo f.targetVolumePosition force
    else f.originalPosition.add (f.direction.smul (force * 12))
  let q := Quat.setFromAxisAngle f.rotationAxis (force * 15 * rotForce)
  let originalQuat := Quat.setFromEulerXYZ f.originalRotation
  ⟨pos, q.mulq originalQuat⟩

/-- Modelled from the spec: the fixed explosion scale constant. -/
def explosionScale : ℝ := 12

/-- Modelled from the spec: the fixed spin scale constant. -/
def spinScale : ℝ := 15

/-- Modelled from the spec: mathematical linear interpolation
`a + (b - a) * t`, componentwise. -/
def lerpSpec (a b : RV3) (t : ℝ) : RV3 :=
  ⟨a.x + (b.x - a.x) * t, a.y + (b.y - a.y) * t, a.z + (b.z - a.z) * t⟩

/-- Modelled from the spec: the Hamilton product in its textbook form —
scalar part `w₁w₂ − v₁·v₂`, vector part `w₁v₂ + w₂v₁ + v₁×v₂`. -/
def quatMulSpec (a b : Quat) : Quat :=
  ⟨a.w * b.x + b.w * a.x + (a.y * b.z - a.z * b.y),
   a.w * b.y + b.w * a.y + (a.z * b.x - a.x * b.z),
   a.w * b.z + b.w * a.z + (a.x * b.y - a.y * b.x),
   a.w * b.w - (a.x * b.x + a.y * b.y + a.z * b.z)⟩

/-- Modelled from the spec: the interpolation law — lerp toward the target
when volume-targeting is enabled, translation along the direction by
`force * explosionScale` otherwise, and the axis-angle spin of angle
`force * spinScale * rotForce` composed onto the rest orientation. -/
noncomputable def specInterpolation (useVolume : Bool) (f : FragmentPose)
    (force rotForce : ℝ) : MeshPose :=
  ⟨(if useVolume then lerpSpec f.originalPosition f.targetVolumePosition force
     else f.originalPosition.add (f.direction.smul (force * explosionScale))),
   quatMulSpec (Quat.setFromAxisAngle f.rotationAxis (force * spinScale * rotForce))
     (Quat.setFromEulerXYZ f.originalRotation)⟩

/-- The three.js component formula for quaternion multiplication agrees with
the textbook Hamilton product. -/
theorem mulq_eq_quatMulSpec (a b : Quat) : a.mulq b = quatMulSpec a b := by
  refine Quat.ext ?_ ?_ ?_ ?_ <;> dsimp [Quat.mulq, quatMulSpec] <;> ring

/-- C4 — Interpolation law: for every fragment, `force ∈ [0, 1]` and
`rotForce ≥ 0`, the update written by `updateTransformations` is exactly the
spec's law: lerp toward the volume target (or translation by
`direction * force * explosionScale` with explosionScale = 12), and rotation
`axisAngle(rotationAxis, force * spinScale * rotForce) * euler(originalRotation)`
with spinScale = 15. -/
theorem interpolation_law (useVolume : Bool) (f : FragmentPose)
    (force rotForce : ℝ)
    (_h0 : 0 ≤ force) (_h1 : force ≤ 1) (_hr : 0 ≤ rotForce) :
    updateTransformations useVolume f force rotForce
      = specInterpolation useVolume f force rotForce := by
  unfold updateTransformations specInterpolation explosionScale spinScale
  cases useVolume
  · refine congrArg₂ MeshPose.mk ?_ ?_
    · rfl
    · exact mulq_eq_quatMulSpec _ _
  · refine congrArg₂ MeshPose.mk ?_ ?_
    · rfl
    · exact mulq_eq_quatMulSpec _ _

/-- C4 witness: a concrete fragment at `force = 1/2`, `rotForce = 1`, in both
modes. -/
theorem interpolation_law_witness :
    ((0 : ℝ) ≤ 1/2 ∧ (1/2 : ℝ) ≤ 1 ∧ (0 : ℝ) ≤ 1)
    ∧ updateTransformations true
        ⟨⟨1, 2, 3⟩, ⟨4, 5, 6⟩, ⟨1, 0, 0⟩, ⟨0, 0, 0⟩, ⟨0, 0, 1⟩⟩ (1/2) 1
      = specInterpolation true
        ⟨⟨1, 2, 3⟩, ⟨4, 5, 6⟩, ⟨1, 0, 0⟩, ⟨0, 0, 0⟩, ⟨0, 0, 1⟩⟩ (1/2) 1
    ∧ updateTransformations false
        ⟨⟨1, 2, 3⟩, ⟨4, 5, 6⟩, ⟨1, 0, 0⟩, ⟨0, 0, 0⟩, ⟨0, 0, 1⟩⟩ (1/2) 1
      = specInterpolation false
        ⟨⟨1, 2, 3⟩, ⟨4, 5, 6⟩, ⟨1, 0, 0⟩, ⟨0, 0, 0⟩, ⟨0, 0, 1⟩⟩ (1/2) 1 :=
  ⟨⟨by norm_num, by norm_num, by norm_num⟩,
   interpolation_law true ⟨⟨1, 2, 3⟩, ⟨4, 5, 6⟩, ⟨1, 0, 0⟩, ⟨0, 0, 0⟩, ⟨0, 0, 1⟩⟩
     (1/2) 1 (by norm_num) (by norm_num) (by norm_num),
   interpolation_law false ⟨⟨1, 2, 3⟩, ⟨4, 5, 6⟩, ⟨1, 0, 0⟩, ⟨0, 0, 0⟩, ⟨0, 0, 1⟩⟩
     (1/2) 1 (by norm_num) (by norm_num) (by norm_num)⟩

/-- C5 — Pose idempotence at rest: at `force = 0` the update returns exactly
the original position (both modes) and a rotation equal to the rest Euler
orientation, because the spin quaternion degenerates to the identity — for
every fragment and every `rotForce`. -/
theorem pose_rest_idempotent (useVolume : Bool) (f : FragmentPose)
    (rotForce : ℝ) :
    (updateTransformations useVolume f 0 rotForce).position = f.originalPosition
    ∧ (updateTransformations useVolume f 0 rotForce).quaternion
        = Quat.setFromEulerXYZ f.originalRotation
    ∧ Quat.setFromAxisAngle f.rotationAxis (0 * 15 * rotForce) = ⟨0, 0, 0, 1⟩ := by
  have hangle : (0 * 15 * rotForce : ℝ) / 2 = 0 := by ring
  have hq : Quat.setFromAxisAngle f.rotationAxis (0 * 15 * rotForce)
      = ⟨0, 0, 0, 1⟩ := by
    unfold Quat.setFromAxisAngle
    rw [hangle, Real.sin_zero, Real.cos_zero]
    refine Quat.ext ?_ ?_ ?_ ?_ <;> dsimp <;> ring
  refine ⟨?_, ?_, hq⟩
  · cases useVolume
    · simp only [updateTransformations, Bool.false_eq_true, if_false]
      refine RV3.ext ?_ ?_ ?_ <;> dsimp [RV3.add, RV3.smul] <;> ring
    · simp only [updateTransformations, if_true]
      refine RV3.ext ?_ ?_ ?_ <;> dsimp [RV3.lerpTo] <;> ring
  · simp only [updateTransformations]
    rw [hq]
    refine Quat.ext ?_ ?_ ?_ ?_ <;> dsimp [Quat.mulq] <;> ring

/-- The explosion direction of shatterEngine.ts line 109: the fragment
centroid minus the mesh centre, normalised by three.js `normalize`. -/
noncomputable def explosionDirection (fragCentroid meshCenter : RV3) : RV3 :=
  (fragCentroid.sub meshCenter).normalize

/-- C8 — Guarded explosion direction: the direction is always a well-defined
vector.  When the fragment centroid coincides with the mesh centre the
zero-length guard of `normalize` divides by 1 and stores the zero vector
(never NaN/undefined); otherwise the stored direction is a unit vector. -/
theorem explosion_direction_guarded (fragCentroid meshCenter : RV3) :
    (fragCentroid = meshCenter →
      explosionDirection fragCentroid meshCenter = ⟨0, 0, 0⟩)
    ∧ (fragCentroid ≠ meshCenter →
      (explosionDirection fragCentroid meshCenter).len = 1) := by
  constructor
  · intro h
    subst h
    unfold explosionDirection RV3.normalize RV3.sub RV3.len
    simp
  · intro hne
    have h1 : fragCentroid.x - meshCenter.x ≠ 0
        ∨ fragCentroid.y - meshCenter.y ≠ 0
        ∨ fragCentroid.z - meshCenter.z ≠ 0 := by
      by_contra hcon
      push_neg at hcon
      obtain ⟨hx, hy, hz⟩ := hcon
      exact hne (RV3.ext (by linarith) (by linarith) (by linarith))
    have hs : 0 < (fragCentroid.x - meshCenter.x) ^ 2
        + (fragCentroid.y - meshCenter.y) ^ 2
        + (fragCentroid.z - meshCenter.z) ^ 2 := by
      rcases h1 with h | h | h
      · have := sq_pos_of_ne_zero h
        nlinarith [sq_nonneg (fragCentroid.y - meshCenter.y),
          sq_nonneg (fragCentroid.z - meshCenter.z)]
      · have := sq_pos_of_ne_zero h
        nlinarith [sq_nonneg (fragCentroid.x - meshCenter.x),
          sq_nonneg (fragCentroid.z - meshCenter.z)]
      · have := sq_pos_of_ne_zero h
        nlinarith [sq_nonneg (fragCentroid.x - meshCenter.x),
          sq_nonneg (fragCentroid.y - meshCenter.y)]
    have hlen : (fragCentroid.sub meshCenter).len
        = Real.sqrt ((fragCentroid.x - meshCenter.x) ^ 2
            + (fragCentroid.y - meshCenter.y) ^ 2
            + (fragCentroid.z - meshCenter.z) ^ 2) := rfl
    have hlpos : 0 < (fragCentroid.sub meshCenter).len := by
      rw [hlen]
      exact Real.sqrt_pos.mpr hs
    unfold explosionDirection RV3.normalize
    rw [if_neg (ne_of_gt hlpos)]
    unfold RV3.len at hlpos ⊢
    unfold RV3.sub at hs hlpos ⊢
    dsimp at hs hlpos ⊢
    rw [div_pow, div_pow, div_pow, div_add_div_same, div_add_div_same,
      Real.sq_sqrt (le_of_lt hs), div_self (ne_of_gt hs), Real.sqrt_one]

/-- C8 witness: coincident centroid and centre give the zero vector; a
distinct centroid gives a unit direction. -/
theorem explosion_direction_guarded_witness :
    explosionDirection ⟨0, 0, 0⟩ ⟨0, 0, 0⟩ = ⟨0, 0, 0⟩
    ∧ (explosionDirection ⟨3, 0, 0⟩ ⟨0, 0, 0⟩).len = 1 :=
  ⟨(explosion_direction_guarded ⟨0, 0, 0⟩ ⟨0, 0, 0⟩).1 rfl,
   (explosion_direction_guarded ⟨3, 0, 0⟩ ⟨0, 0, 0⟩).2
     (fun h => absurd (congrArg RV3.x h) (by norm_num))⟩

end BrokenAssets
